import Mathlib

/-!
Shallow embedding of the CardScan detection-aggregation pipeline
(app.py, src/config.py, src/utils.py) and proofs about it.

Numeric values (confidences, pixel coordinates) are modelled with exact
rationals; machine strings with Lean strings.
-/

namespace CardScan

/-- One detection instance returned by the inference API
(fields of the prediction dictionary used by the code). -/
structure Pred where
  cls : String
  confidence : ℚ
  x : ℚ
  y : ℚ
  width : ℚ
  height : ℚ
deriving DecidableEq, Repr

/-- config.CONFIDENCE_THRESHOLD = 0.5 -/
def CONFIDENCE_THRESHOLD : ℚ := 1/2

/-- config.DUPLICATE_DISTANCE_THRESHOLD = 250 (pixels) -/
def DUPLICATE_DISTANCE_THRESHOLD : ℚ := 250

/-- config.RANKS: rank token to rank display name. -/
def RANKS : List (String × String) :=
  [("A", "Ace"), ("2", "2"), ("3", "3"), ("4", "4"), ("5", "5"),
   ("6", "6"), ("7", "7"), ("8", "8"), ("9", "9"), ("10", "10"),
   ("J", "Jack"), ("Q", "Queen"), ("K", "King")]

/-- config.SUITS: suit letter to (suit name, suit emoji). -/
def SUITS : List (String × String × String) :=
  [("H", ("Hearts", "♥️")),
   ("D", ("Diamonds", "♦️")),
   ("S", ("Spades", "♠️")),
   ("C", ("Clubs", "♣️"))]

/-- utils.get_full_card_name: convert a card code such as "AH" to a display
name such as "♥️ Ace of Hearts"; unrecognized codes get the "🃏 " fallback.
The source uppercases the final character before the suit lookup. -/
def get_full_card_name (card_name : String) : String :=
  let cs := card_name.data
  if 2 ≤ cs.length then
    match cs.getLast? with
    | some c =>
      let suit_char := String.mk [c.toUpper]
      let rank_part := String.mk cs.dropLast
      match SUITS.lookup suit_char, RANKS.lookup rank_part with
      | some (suit_name, emoji), some rank_name =>
          emoji ++ " " ++ rank_name ++ " of " ++ suit_name
      | _, _ => "🃏 " ++ card_name
    | none => "🃏 " ++ card_name
  else "🃏 " ++ card_name

/-- The duplicate test of utils.filter_duplicates: an existing accepted
prediction has the same class and center distance below the threshold.
The source compares sqrt(dx^2 + dy^2) < 250; over the rationals we compare
the squared distance with 250^2, which is equivalent since sqrt is
strictly monotone on nonnegative reals. -/
def closeTo (p e : Pred) : Bool :=
  decide ((p.x - e.x)^2 + (p.y - e.y)^2 < DUPLICATE_DISTANCE_THRESHOLD^2)

/-- One iteration of the inner loop of utils.filter_duplicates: is the
candidate a duplicate of some already-accepted prediction (same class,
centers closer than the threshold)? -/
def isDup (res : List Pred) (p : Pred) : Bool :=
  res.any fun e => e.cls == p.cls && closeTo p e

/-- Stable insertion into a confidence-descending list; together with
sortDesc this models Python sorted(..., key=confidence, reverse=True),
which is a stable descending sort. -/
def insertDesc (p : Pred) : List Pred → List Pred
  | [] => [p]
  | q :: qs => if q.confidence ≤ p.confidence then p :: q :: qs else q :: insertDesc p qs

/-- Stable sort by confidence descending. -/
def sortDesc : List Pred → List Pred
  | [] => []
  | p :: ps => insertDesc p (sortDesc ps)

/-- The greedy acceptance loop of utils.filter_duplicates: res is the
result list built so far; each candidate is dropped iff it duplicates an
accepted one. -/
def greedyGo (res : List Pred) : List Pred → List Pred
  | [] => res
  | p :: ps => if isDup res p then greedyGo res ps else greedyGo (res ++ [p]) ps

/-- utils.filter_duplicates: drop predictions below the confidence
threshold, sort by confidence descending, then greedily accept
spatially-distinct predictions. -/
def filter_duplicates (predictions : List Pred) : List Pred :=
  match predictions with
  | [] => []
  | _ =>
    let predictions := predictions.filter fun p => decide (CONFIDENCE_THRESHOLD ≤ p.confidence)
    greedyGo [] (sortDesc predictions)

/-- One entry of st.session_state.card_history: a per-card running count
and confidence. -/
structure TallyEntry where
  count : ℕ
  confidence : ℚ
deriving DecidableEq, Repr

/-- st.session_state.card_history, a Python dict modelled as an
insertion-ordered association list with unique keys. -/
abbrev Tally := List (String × TallyEntry)

/-- Python dict write d[k] = v: replace the value at an existing key in
place, or append the key at the end. -/
def setKey (t : Tally) (k : String) (v : TallyEntry) : Tally :=
  match t with
  | [] => [(k, v)]
  | (k', v') :: rest => if k' = k then (k, v) :: rest else (k', v') :: setKey rest k v

/-- Python dict read with membership test, d.get-like lookup. -/
def getKey (t : Tally) (k : String) : Option TallyEntry :=
  match t with
  | [] => none
  | (k', v') :: rest => if k' = k then some v' else getKey rest k

/-- Upload mode, app.py lines 214-227: for each filtered prediction,
insert its class with count 1, or increment the stored count and raise
the stored confidence to the max. -/
def uploadStep (t : Tally) (p : Pred) : Tally :=
  match getKey t p.cls with
  | none => setKey t p.cls ⟨1, p.confidence⟩
  | some e => setKey t p.cls ⟨e.count + 1, max e.confidence p.confidence⟩

/-- Upload mode processing of one image's filtered prediction list. -/
def uploadUpdate (t : Tally) (ps : List Pred) : Tally :=
  ps.foldl uploadStep t

/-- Live mode, app.py lines 277-283: build current_counts by grouping the
frame's predictions by class; a class is first inserted with count 0 and
the prediction's confidence, then count is incremented and confidence
maxed, exactly as the source does. -/
def countsStep (m : Tally) (p : Pred) : Tally :=
  let m := match getKey m p.cls with
    | none => setKey m p.cls ⟨0, p.confidence⟩
    | some _ => m
  match getKey m p.cls with
  | some e => setKey m p.cls ⟨e.count + 1, max e.confidence p.confidence⟩
  | none => m

/-- current_counts for one frame. -/
def buildCounts (ps : List Pred) : Tally :=
  ps.foldl countsStep []

/-- Live mode, app.py lines 286-294: merge one class of current_counts
into the history. An absent class is inserted as-is; a present class has
its count raised only when the frame count is strictly greater, and its
stored confidence is left untouched. The Bool is the changed flag. -/
def reconcileStep (acc : Tally × Bool) (kv : String × TallyEntry) : Tally × Bool :=
  match getKey acc.1 kv.1 with
  | none => (setKey acc.1 kv.1 kv.2, true)
  | some e =>
    if e.count < kv.2.count then (setKey acc.1 kv.1 ⟨kv.2.count, e.confidence⟩, true)
    else acc

/-- One pass of the live-mode update loop over a frame's predictions. -/
def liveReconcile (t : Tally) (ps : List Pred) : Tally × Bool :=
  (buildCounts ps).foldl reconcileStep (t, false)

/-- Reset Session button, app.py lines 241-243: the history becomes the
empty dict. -/
def resetSession : Tally := []

/-- Count stored for a class, 0 when the class is absent. -/
def countD (t : Tally) (c : String) : ℕ :=
  match getKey t c with
  | none => 0
  | some e => e.count

/-- Confidence stored for a class, 0 when the class is absent. -/
def confD (t : Tally) (c : String) : ℚ :=
  match getKey t c with
  | none => 0
  | some e => e.confidence

/-- Number of predictions of a given class in a list. -/
def countClass (c : String) : List Pred → ℕ
  | [] => 0
  | p :: ps => (if p.cls = c then 1 else 0) + countClass c ps

/-- Maximum confidence among predictions of a given class, 0 if none. -/
def maxConfClass (c : String) : List Pred → ℚ
  | [] => 0
  | p :: ps => if p.cls = c then max p.confidence (maxConfClass c ps) else maxConfClass c ps

/-- Python int() truncation toward zero of a rational. -/
def truncQ (q : ℚ) : ℤ :=
  q.num.tdiv q.den

/-- Floor of a rational as an integer (denominator is positive). -/
def floorQ (q : ℚ) : ℤ :=
  q.num.fdiv q.den

/-- Rounding to the nearest integer with ties to even, the rule Python's
format specification .0% applies to value * 100. -/
def roundHalfEven (q : ℚ) : ℤ :=
  let f := floorQ q
  let r := q - (f : ℚ)
  if r < 1/2 then f
  else if (1/2 : ℚ) < r then f + 1
  else if f % 2 = 0 then f else f + 1

/-- Python f-string {v:.0%}: v * 100 rounded to 0 decimal places, then a
percent sign. -/
def formatPercent (v : ℚ) : String :=
  toString (roundHalfEven (v * 100)) ++ "%"

/-- One cv2 drawing call issued by utils.draw_boxes_cv. -/
inductive DrawOp
  | rect (left top right bottom : ℤ) (color : ℕ × ℕ × ℕ) (thickness : ℕ)
  | text (label : String) (x y : ℤ) (color : ℕ × ℕ × ℕ)
deriving DecidableEq, Repr

/-- A frame is modelled by the journal of drawing calls applied to it;
cv2.rectangle and cv2.putText each append one op. -/
abbrev Frame := List DrawOp

/-- The label utils.draw_boxes_cv renders for one prediction: a plain
rank-of-suit name without emoji (falling back to the raw rank token or
the raw code), then the confidence as a 0-decimal percentage. Note the
suit character is not uppercased here, unlike get_full_card_name. -/
def drawLabel (p : Pred) : String :=
  let cs := p.cls.data
  let full_name :=
    if 2 ≤ cs.length ∧ (SUITS.lookup (String.mk [cs.getLastD 'X'])).isSome then
      let rank_name := (RANKS.lookup (String.mk cs.dropLast)).getD (String.mk cs.dropLast)
      match SUITS.lookup (String.mk [cs.getLastD 'X']) with
      | some (suit_name, _) => rank_name ++ " of " ++ suit_name
      | none => p.cls
    else p.cls
  full_name ++ " (" ++ formatPercent p.confidence ++ ")"

/-- The two cv2 calls utils.draw_boxes_cv issues for one prediction:
the box from the truncated center and floor-halved width/height, and the
label text 10 px above the box's top-left corner, both in green. -/
def predOps (p : Pred) : List DrawOp :=
  let x := truncQ p.x
  let y := truncQ p.y
  let w := truncQ p.width
  let h := truncQ p.height
  let left := x - w.fdiv 2
  let top := y - h.fdiv 2
  let right := x + w.fdiv 2
  let bottom := y + h.fdiv 2
  [DrawOp.rect left top right bottom (0, 255, 0) 3,
   DrawOp.text (drawLabel p) left (top - 10) (0, 255, 0)]

/-- utils.draw_boxes_cv as a pure function on the frame journal: the ops
for each prediction are appended in order. -/
def draw_boxes_cv (frame : Frame) (preds : List Pred) : Frame :=
  preds.foldl (fun f p => f ++ predOps p) frame

/-- Labels of the text-drawing calls in a journal. -/
def textsOf (frame : Frame) : List String :=
  frame.filterMap fun op =>
    match op with
    | DrawOp.text s _ _ _ => some s
    | _ => none

/-- Heap of frame arrays: draw_boxes_cv receives a reference into it.
Each cv2 call mutates the referenced array in place, and the function
returns the reference it was given. -/
def drawBoxesCvRef (h : List Frame) (r : ℕ) : List Pred → List Frame × ℕ
  | [] => (h, r)
  | p :: ps => drawBoxesCvRef (h.set r (h.getD r [] ++ predOps p)) r ps

/-- Shape of a decoded inference response: either a JSON object carrying
optional predictions / results / detections fields, or a bare JSON list. -/
inductive ApiResult
  | dict (predictions? : Option (List Pred)) (results? : Option (List Pred))
      (detections? : Option (List Pred))
  | bare (items : List Pred)
deriving DecidableEq, Repr

/-- How the HTTP attempt of utils.detect_cards can fail: a
requests.RequestException (transport errors, and JSON parse errors,
which requests raises as a RequestException subclass) is retried via the
SDK; any other exception is not. -/
inductive CallErr
  | requestException
  | otherException
deriving DecidableEq, Repr

/-- The response normalization in utils.detect_cards lines 109-116: if
the predictions field is missing, alias results, else wrap a bare list,
else alias detections. On a bare list the Python membership tests are
element tests and fail for string keys, so the isinstance branch wraps it. -/
def normalize : ApiResult → ApiResult
  | ApiResult.bare items => ApiResult.dict (some items) none none
  | ApiResult.dict (some p) rs ds => ApiResult.dict (some p) rs ds
  | ApiResult.dict none rs ds =>
    match rs with
    | some l => ApiResult.dict (some l) (some l) ds
    | none =>
      match ds with
      | some l => ApiResult.dict (some l) none (some l)
      | none => ApiResult.dict none none none

/-- The value {'predictions': []} that detect_cards substitutes on
failure. -/
def emptyResult : ApiResult := ApiResult.dict (some []) none none

/-- utils.detect_cards, modelled over the outcomes of its two external
calls: the HTTP request (with response decoding) and the SDK fallback
client.infer. A successful HTTP response is normalized and returned; a
RequestException falls back to the SDK and returns its result unchanged
when it succeeds, {'predictions': []} when it too fails; any other
exception yields {'predictions': []} directly. No error escapes. -/
def detect_cards (httpOutcome : Except CallErr ApiResult)
    (sdkOutcome : Except Unit ApiResult) : ApiResult :=
  match httpOutcome with
  | Except.ok r => normalize r
  | Except.error CallErr.requestException =>
    match sdkOutcome with
    | Except.ok r => r
    | Except.error _ => emptyResult
  | Except.error CallErr.otherException => emptyResult

/-- Stated from the amended claim wording, to be compared with the label
the renderer actually draws: the plain rank-of-suit name (no emoji; the
rank token falls back to itself, the suit letter is matched
case-sensitively; an unrecognized or too-short code stays as-is),
followed by the 0-decimal percentage in parentheses. -/
def labelSpec (p : Pred) : String :=
  let rawRank := String.mk p.cls.data.dropLast
  let suitKey := String.mk [p.cls.data.getLastD 'X']
  match SUITS.lookup suitKey with
  | some (suit_name, _) =>
    if 2 ≤ p.cls.data.length then
      ((RANKS.lookup rawRank).getD rawRank) ++ " of " ++ suit_name
        ++ " (" ++ formatPercent p.confidence ++ ")"
    else p.cls ++ " (" ++ formatPercent p.confidence ++ ")"
  | none => p.cls ++ " (" ++ formatPercent p.confidence ++ ")"

/-- Confidence-descending order between predictions. -/
def confGE (a b : Pred) : Prop := b.confidence ≤ a.confidence

/-- Invariant of the greedy acceptance loop: every element of t was
accepted against exactly the accumulator res followed by the part of t
before it. -/
def GInv (res t : List Pred) : Prop :=
  ∀ a p b, t = a ++ p :: b → isDup (res ++ a) p = false

/-! ### Helper lemmas: dict reads and writes -/

theorem getKey_setKey_self (t : Tally) (k : String) (v : TallyEntry) :
    getKey (setKey t k v) k = some v := by
  induction t with
  | nil => simp [setKey, getKey]
  | cons kv rest ih =>
    obtain ⟨k', v'⟩ := kv
    by_cases h : k' = k <;> simp [setKey, getKey, h, ih]

theorem getKey_setKey_ne (t : Tally) (k : String) (v : TallyEntry) (c : String)
    (h : c ≠ k) : getKey (setKey t k v) c = getKey t c := by
  induction t with
  | nil =>
    have h1 : ¬ k = c := fun hh => h hh.symm
    simp [setKey, getKey, h1]
  | cons kv rest ih =>
    obtain ⟨k', v'⟩ := kv
    by_cases hk : k' = k
    · subst hk
      have h1 : ¬ k' = c := fun hh => h hh.symm
      simp [setKey, getKey, h1]
    · by_cases hc : k' = c <;> simp [setKey, getKey, hk, hc, ih, h]

/-! ### Helper lemmas: upload-mode tally update -/

theorem countD_uploadStep (t : Tally) (p : Pred) (c : String) :
    countD (uploadStep t p) c = countD t c + (if p.cls = c then 1 else 0) := by
  by_cases hc : p.cls = c
  · subst hc
    unfold uploadStep countD
    cases hg : getKey t p.cls with
    | none => simp [hg, getKey_setKey_self]
    | some e => simp [hg, getKey_setKey_self]
  · have hne : c ≠ p.cls := fun hh => hc hh.symm
    unfold uploadStep countD
    cases hg : getKey t p.cls <;>
      simp [hc, getKey_setKey_ne _ _ _ _ hne]

theorem countD_uploadUpdate (ps : List Pred) (t : Tally) (c : String) :
    countD (uploadUpdate t ps) c = countD t c + countClass c ps := by
  induction ps generalizing t with
  | nil => simp [uploadUpdate, countClass]
  | cons p ps ih =>
    have : uploadUpdate t (p :: ps) = uploadUpdate (uploadStep t p) ps := rfl
    rw [this, ih, countD_uploadStep, countClass]
    ring

theorem confD_uploadStep_ne (t : Tally) (p : Pred) (c : String) (hc : p.cls ≠ c) :
    confD (uploadStep t p) c = confD t c := by
  have hne : c ≠ p.cls := fun hh => hc hh.symm
  unfold uploadStep confD
  cases hg : getKey t p.cls <;> simp [getKey_setKey_ne _ _ _ _ hne]

theorem confD_uploadStep_nonneg (t : Tally) (p : Pred) (c : String)
    (ht : 0 ≤ confD t c) (hp : 0 ≤ p.confidence) : 0 ≤ confD (uploadStep t p) c := by
  by_cases hc : p.cls = c
  · subst hc
    unfold uploadStep confD
    cases hg : getKey t p.cls with
    | none => simpa [hg, getKey_setKey_self] using hp
    | some e =>
      simp only [hg, getKey_setKey_self]
      unfold confD at ht
      rw [hg] at ht
      exact le_max_of_le_left ht
  · rw [confD_uploadStep_ne _ _ _ hc]
    exact ht

theorem maxConfClass_nonneg (c : String) (ps : List Pred) : 0 ≤ maxConfClass c ps := by
  induction ps with
  | nil => simp [maxConfClass]
  | cons p ps ih =>
    unfold maxConfClass
    by_cases hc : p.cls = c
    · simp only [hc, if_pos rfl]
      exact le_max_of_le_right ih
    · simpa [hc] using ih

theorem maxConfClass_cons_self (p : Pred) (ps : List Pred) :
    maxConfClass p.cls (p :: ps) = max p.confidence (maxConfClass p.cls ps) := by
  simp [maxConfClass]

theorem maxConfClass_cons_ne (c : String) (p : Pred) (ps : List Pred) (hc : p.cls ≠ c) :
    maxConfClass c (p :: ps) = maxConfClass c ps := by
  simp [maxConfClass, hc]

theorem confD_uploadUpdate (ps : List Pred) (t : Tally) (c : String)
    (hps : ∀ p ∈ ps, 0 ≤ p.confidence) (ht : 0 ≤ confD t c) :
    confD (uploadUpdate t ps) c = max (confD t c) (maxConfClass c ps) := by
  induction ps generalizing t with
  | nil => simp [uploadUpdate, maxConfClass, max_eq_left ht]
  | cons p ps ih =>
    have hp : 0 ≤ p.confidence := hps p (List.mem_cons_self _ _)
    have hps' : ∀ q ∈ ps, 0 ≤ q.confidence := fun q hq => hps q (List.mem_cons_of_mem _ hq)
    have hstep : uploadUpdate t (p :: ps) = uploadUpdate (uploadStep t p) ps := rfl
    rw [hstep, ih _ hps' (confD_uploadStep_nonneg _ _ _ ht hp)]
    by_cases hc : p.cls = c
    · subst hc
      unfold uploadStep
      cases hg : getKey t p.cls with
      | none =>
        have ht0 : confD t p.cls = 0 := by unfold confD; rw [hg]
        have hins : confD (setKey t p.cls ⟨1, p.confidence⟩) p.cls = p.confidence := by
          unfold confD; rw [getKey_setKey_self]
        rw [ht0, hins, maxConfClass_cons_self]
        exact (max_eq_right (le_max_of_le_left hp)).symm
      | some e =>
        have hte : confD t p.cls = e.confidence := by unfold confD; rw [hg]
        have hins : confD (setKey t p.cls ⟨e.count + 1, max e.confidence p.confidence⟩) p.cls
            = max e.confidence p.confidence := by
          unfold confD; rw [getKey_setKey_self]
        rw [hte, hins, maxConfClass_cons_self]
        exact max_assoc _ _ _
    · rw [confD_uploadStep_ne _ _ _ hc, maxConfClass_cons_ne _ _ _ hc]

/-! ### Helper lemmas: live-mode reconcile -/

theorem reconcileStep_getKey (acc : Tally × Bool) (kv : String × TallyEntry)
    (c : String) (e : TallyEntry) (h : getKey acc.1 c = some e) :
    ∃ e', getKey (reconcileStep acc kv).1 c = some e'
      ∧ e'.confidence = e.confidence ∧ e.count ≤ e'.count := by
  unfold reconcileStep
  cases hg : getKey acc.1 kv.1 with
  | none =>
    have hne : c ≠ kv.1 := by
      intro hh
      rw [hh, hg] at h
      exact Option.noConfusion h
    exact ⟨e, by simpa [getKey_setKey_ne _ _ _ _ hne] using h, rfl, le_refl _⟩
  | some e0 =>
    by_cases hlt : e0.count < kv.2.count
    · simp only [if_pos hlt]
      by_cases hc : c = kv.1
      · subst hc
        rw [hg] at h
        obtain rfl : e0 = e := Option.some.inj h
        exact ⟨⟨kv.2.count, e0.confidence⟩, by simp [getKey_setKey_self], rfl, le_of_lt hlt⟩
      · exact ⟨e, by simpa [getKey_setKey_ne _ _ _ _ hc] using h, rfl, le_refl _⟩
    · simp only [if_neg hlt]
      exact ⟨e, h, rfl, le_refl _⟩

theorem foldReconcile_getKey (l : List (String × TallyEntry)) (acc : Tally × Bool)
    (c : String) (e : TallyEntry) (h : getKey acc.1 c = some e) :
    ∃ e', getKey (l.foldl reconcileStep acc).1 c = some e'
      ∧ e'.confidence = e.confidence ∧ e.count ≤ e'.count := by
  induction l generalizing acc e with
  | nil => exact ⟨e, h, rfl, le_refl _⟩
  | cons kv l ih =>
    obtain ⟨e1, h1, hc1, hn1⟩ := reconcileStep_getKey acc kv c e h
    obtain ⟨e2, h2, hc2, hn2⟩ := ih (reconcileStep acc kv) e1 h1
    exact ⟨e2, h2, hc2.trans hc1, hn1.trans hn2⟩

theorem liveReconcile_getKey (t : Tally) (ps : List Pred) (c : String) (e : TallyEntry)
    (h : getKey t c = some e) :
    ∃ e', getKey (liveReconcile t ps).1 c = some e'
      ∧ e'.confidence = e.confidence ∧ e.count ≤ e'.count :=
  foldReconcile_getKey (buildCounts ps) (t, false) c e h

theorem countD_liveReconcile_mono (t : Tally) (ps : List Pred) (c : String) :
    countD t c ≤ countD (liveReconcile t ps).1 c := by
  unfold countD
  cases hg : getKey t c with
  | none => exact Nat.zero_le _
  | some e =>
    obtain ⟨e', h', _, hn⟩ := liveReconcile_getKey t ps c e hg
    rw [h']
    exact hn

/-! ### Helper lemmas: sorting by confidence -/

theorem mem_insertDesc {p q : Pred} {l : List Pred} :
    q ∈ insertDesc p l ↔ q = p ∨ q ∈ l := by
  induction l with
  | nil => simp [insertDesc]
  | cons r rs ih =>
    unfold insertDesc
    by_cases h : r.confidence ≤ p.confidence
    · simp [h]
    · simp [h, ih]
      tauto

theorem pairwise_insertDesc {p : Pred} {l : List Pred} (h : l.Pairwise confGE) :
    (insertDesc p l).Pairwise confGE := by
  induction l with
  | nil => simp [insertDesc, List.Pairwise]
  | cons q qs ih =>
    rw [List.pairwise_cons] at h
    obtain ⟨hq, hqs⟩ := h
    unfold insertDesc
    by_cases hc : q.confidence ≤ p.confidence
    · rw [if_pos hc, List.pairwise_cons]
      refine ⟨?_, List.pairwise_cons.mpr ⟨hq, hqs⟩⟩
      intro x hx
      rcases List.mem_cons.mp hx with rfl | hx'
      · exact hc
      · exact (hq x hx').trans hc
    · rw [if_neg hc, List.pairwise_cons]
      refine ⟨?_, ih hqs⟩
      intro x hx
      rcases mem_insertDesc.mp hx with rfl | hx'
      · exact le_of_lt (lt_of_not_le hc)
      · exact hq x hx'

theorem sortDesc_pairwise (l : List Pred) : (sortDesc l).Pairwise confGE := by
  induction l with
  | nil => simp [sortDesc]
  | cons p ps ih => exact pairwise_insertDesc ih

theorem mem_sortDesc {q : Pred} {l : List Pred} : q ∈ sortDesc l ↔ q ∈ l := by
  induction l with
  | nil => simp [sortDesc]
  | cons p ps ih =>
    unfold sortDesc
    rw [mem_insertDesc, ih, List.mem_cons]

theorem insertDesc_eq_cons {p : Pred} {l : List Pred}
    (h : ∀ x ∈ l, x.confidence ≤ p.confidence) : insertDesc p l = p :: l := by
  cases l with
  | nil => rfl
  | cons q qs => exact if_pos (h q (List.mem_cons_self _ _))

theorem sortDesc_eq_self {l : List Pred} (h : l.Pairwise confGE) : sortDesc l = l := by
  induction l with
  | nil => rfl
  | cons p ps ih =>
    rw [List.pairwise_cons] at h
    unfold sortDesc
    rw [ih h.2]
    exact insertDesc_eq_cons h.1

/-! ### Helper lemmas: the greedy acceptance loop -/

theorem GInv_head {res : List Pred} {p : Pred} {t : List Pred} (h : GInv res (p :: t)) :
    isDup res p = false := by
  have h0 := h [] p t rfl
  rwa [List.append_nil] at h0

theorem GInv_shift {res : List Pred} {p : Pred} {t : List Pred} (h : GInv res (p :: t)) :
    GInv (res ++ [p]) t := by
  intro a q b heq
  have h1 := h (p :: a) q b (by rw [heq]; rfl)
  rw [List.append_assoc, List.singleton_append]
  exact h1

theorem greedyGo_structure (l : List Pred) : ∀ res : List Pred,
    ∃ t, greedyGo res l = res ++ t ∧ t.Sublist l ∧ GInv res t := by
  induction l with
  | nil =>
    intro res
    refine ⟨[], (List.append_nil res).symm, List.Sublist.refl _, ?_⟩
    intro a p b heq
    obtain ⟨-, h2⟩ := List.append_eq_nil.mp heq.symm
    exact absurd h2 (List.cons_ne_nil _ _)
  | cons p l ih =>
    intro res
    by_cases hd : isDup res p = true
    · obtain ⟨t, ht, hs, hg⟩ := ih res
      refine ⟨t, ?_, hs.cons _, hg⟩
      rw [← ht]
      simp [greedyGo, hd]
    · rw [Bool.not_eq_true] at hd
      obtain ⟨t', ht', hs', hg'⟩ := ih (res ++ [p])
      refine ⟨p :: t', ?_, hs'.cons₂ _, ?_⟩
      · rw [show greedyGo res (p :: l) = greedyGo (res ++ [p]) l by simp [greedyGo, hd],
          ht', List.append_assoc, List.singleton_append]
      · intro a q b heq
        cases a with
        | nil =>
          rw [List.nil_append] at heq
          injection heq with h1 h2
          subst h1
          rwa [List.append_nil]
        | cons x a' =>
          rw [List.cons_append] at heq
          injection heq with h1 h2
          subst h1
          have h2' := hg' a' q b h2
          rwa [List.append_assoc, List.singleton_append] at h2'

theorem greedyGo_of_GInv (t : List Pred) : ∀ res : List Pred,
    GInv res t → greedyGo res t = res ++ t := by
  induction t with
  | nil => intro res _; exact (List.append_nil res).symm
  | cons p t ih =>
    intro res h
    have hd : isDup res p = false := GInv_head h
    rw [show greedyGo res (p :: t) = greedyGo (res ++ [p]) t by simp [greedyGo, hd],
      ih _ (GInv_shift h), List.append_assoc, List.singleton_append]

theorem GInv_pairwise (t : List Pred) : ∀ res : List Pred, GInv res t →
    t.Pairwise (fun a b =>
      ¬(a.cls = b.cls ∧ (b.x - a.x)^2 + (b.y - a.y)^2 < DUPLICATE_DISTANCE_THRESHOLD^2)) := by
  induction t with
  | nil => intro res _; exact List.Pairwise.nil
  | cons p t ih =>
    intro res h
    rw [List.pairwise_cons]
    refine ⟨?_, ih _ (GInv_shift h)⟩
    intro q hq
    obtain ⟨a, b, heq⟩ := List.append_of_mem hq
    have h1 := h (p :: a) q b (by rw [heq]; rfl)
    have hp : p ∈ res ++ p :: a := List.mem_append_right _ (List.mem_cons_self _ _)
    intro hcon
    have h2 := List.any_eq_false.mp h1 p hp
    apply h2
    simp only [isDup, closeTo] at *
    rw [Bool.and_eq_true, beq_iff_eq, decide_eq_true_iff]
    exact hcon

/-- filter_duplicates leaves a list unchanged when all its elements pass
the confidence threshold, it is sorted by descending confidence, and each
element is not a duplicate of the ones before it. -/
theorem filter_duplicates_eq_self_of (t : List Pred)
    (hconf : ∀ a ∈ t, (decide (CONFIDENCE_THRESHOLD ≤ a.confidence)) = true)
    (hpw : t.Pairwise confGE) (hg : GInv [] t) : filter_duplicates t = t := by
  cases t with
  | nil => rfl
  | cons q qs =>
    show greedyGo [] (sortDesc ((q :: qs).filter
      fun p => decide (CONFIDENCE_THRESHOLD ≤ p.confidence))) = q :: qs
    rw [List.filter_eq_self.mpr hconf, sortDesc_eq_self hpw,
      greedyGo_of_GInv _ _ hg, List.nil_append]

/-! ### Claims C3 and C5: the prediction filter -/

/-- Claim C3: the prediction filter is idempotent; filtering an
already-filtered prediction sequence returns it unchanged. -/
theorem C3_filter_idempotent (ps : List Pred) :
    filter_duplicates (filter_duplicates ps) = filter_duplicates ps := by
  cases ps with
  | nil => rfl
  | cons p0 ps0 =>
    obtain ⟨t, ht, hs, hg⟩ := greedyGo_structure
      (sortDesc ((p0 :: ps0).filter fun p => decide (CONFIDENCE_THRESHOLD ≤ p.confidence))) []
    have hout : filter_duplicates (p0 :: ps0) = t := by
      show greedyGo [] _ = t
      rw [ht, List.nil_append]
    rw [hout]
    refine filter_duplicates_eq_self_of t ?_ ((sortDesc_pairwise _).sublist hs) hg
    intro a ha
    have hmem : a ∈ (p0 :: ps0).filter (fun p => decide (CONFIDENCE_THRESHOLD ≤ p.confidence)) :=
      mem_sortDesc.mp (hs.mem ha)
    simpa using List.of_mem_filter hmem

/-- Claim C5: no two distinct predictions in the output of the filter
share a class while their centers lie strictly closer than
DUPLICATE_DISTANCE_THRESHOLD; stated with squared Euclidean distances,
which is equivalent for nonnegative distances. -/
theorem C5_no_close_same_class (ps : List Pred) :
    (filter_duplicates ps).Pairwise (fun a b =>
      ¬(a.cls = b.cls ∧ (b.x - a.x)^2 + (b.y - a.y)^2 < DUPLICATE_DISTANCE_THRESHOLD^2)) := by
  cases ps with
  | nil => exact List.Pairwise.nil
  | cons p0 ps0 =>
    obtain ⟨t, ht, hs, hg⟩ := greedyGo_structure
      (sortDesc ((p0 :: ps0).filter fun p => decide (CONFIDENCE_THRESHOLD ≤ p.confidence))) []
    have hout : filter_duplicates (p0 :: ps0) = t := by
      show greedyGo [] _ = t
      rw [ht, List.nil_append]
    rw [hout]
    exact GInv_pairwise t [] hg

/-! ### Claims C1, C2, C4: session tally semantics -/

/-- Claim C1, counterexample: in upload mode the code does not follow the
reconcile rule of the live loop; it increments the per-class count for
every prediction of every upload. Uploading the same one-card image twice
yields count 2, not the count 1 the claim requires after the first
upload. -/
theorem C1_counterexample :
    countD (uploadUpdate (uploadUpdate [] (filter_duplicates [⟨"AH", 9/10, 100, 100, 50, 70⟩]))
          (filter_duplicates [⟨"AH", 9/10, 100, 100, 50, 70⟩])) "AH"
        ≠ countD (uploadUpdate [] (filter_duplicates [⟨"AH", 9/10, 100, 100, 50, 70⟩])) "AH"
      ∧ countD (uploadUpdate (uploadUpdate [] (filter_duplicates [⟨"AH", 9/10, 100, 100, 50, 70⟩]))
          (filter_duplicates [⟨"AH", 9/10, 100, 100, 50, 70⟩])) "AH" = 2
      ∧ countD (uploadUpdate [] (filter_duplicates [⟨"AH", 9/10, 100, 100, 50, 70⟩])) "AH" = 1 := by
  norm_num [filter_duplicates, sortDesc, insertDesc, greedyGo, isDup, closeTo,
    CONFIDENCE_THRESHOLD, DUPLICATE_DISTANCE_THRESHOLD, uploadUpdate, uploadStep,
    getKey, setKey, countD]

/-- Claim C1 (amended): in upload mode, processing one uploaded image
updates the tally per prediction: each prediction of a class absent from
the tally inserts it with count 1, and each further prediction of a
present class increments its count by one, so the stored count grows by
exactly the class's multiplicity in the filtered prediction set; in
particular uploading the same image twice doubles each per-class count
rather than leaving it unchanged. -/
theorem C1_upload_counts_add (t : Tally) (ps : List Pred) (c : String) :
    countD (uploadUpdate t ps) c = countD t c + countClass c ps :=
  countD_uploadUpdate ps t c

/-- Claim C2, counterexample: in live mode, a class already present in the
tally never has its stored confidence updated. After a first frame with an
AH at confidence 3/5 and a second frame with an AH at confidence 9/10, the
stored confidence is still 3/5, not the maximum 9/10 ever contributed. -/
theorem C2_counterexample :
    confD (liveReconcile (liveReconcile [] [⟨"AH", 3/5, 100, 100, 50, 70⟩]).1
        [⟨"AH", 9/10, 100, 100, 50, 70⟩]).1 "AH" = 3/5
      ∧ ¬ (3/5 : ℚ) = 9/10 ∧ (3/5 : ℚ) < 9/10 := by
  norm_num [liveReconcile, buildCounts, countsStep, reconcileStep, getKey, setKey, confD]

/-- Claim C2 (amended): in upload mode, the stored confidence of a class
after processing an image is the maximum of the previously stored
confidence (0 when absent) and the confidences of that class's
predictions in the filtered set, so it does track the session maximum; in
live mode, however, the stored confidence of a class is frozen at its
insertion value: a reconcile pass never changes the confidence of a class
already present (and can only raise its count). -/
theorem C2_confidence_semantics :
    (∀ (t : Tally) (ps : List Pred) (c : String),
        (∀ p ∈ ps, 0 ≤ p.confidence) → 0 ≤ confD t c →
          confD (uploadUpdate t ps) c = max (confD t c) (maxConfClass c ps))
      ∧ (∀ (t : Tally) (ps : List Pred) (c : String) (e : TallyEntry),
          getKey t c = some e →
            ∃ e', getKey (liveReconcile t ps).1 c = some e'
              ∧ e'.confidence = e.confidence ∧ e.count ≤ e'.count) :=
  ⟨fun t ps c hps ht => confD_uploadUpdate ps t c hps ht,
   fun t ps c e h => liveReconcile_getKey t ps c e h⟩

/-- Witness for C2_confidence_semantics at concrete inputs: one AH at
confidence 7/10 uploaded into an empty tally stores confidence 7/10, and a
live reconcile of a higher-confidence frame leaves a stored confidence of
3/5 unchanged. -/
theorem C2_witness :
    confD (uploadUpdate [] [⟨"AH", 7/10, 100, 100, 50, 70⟩]) "AH"
        = max (confD ([] : Tally) "AH") (maxConfClass "AH" [⟨"AH", 7/10, 100, 100, 50, 70⟩])
      ∧ ∃ e', getKey (liveReconcile [("AH", ⟨1, 3/5⟩)] [⟨"AH", 9/10, 100, 100, 50, 70⟩]).1 "AH"
          = some e' ∧ e'.confidence = (⟨1, 3/5⟩ : TallyEntry).confidence
          ∧ (⟨1, 3/5⟩ : TallyEntry).count ≤ e'.count := by
  constructor
  · exact C2_confidence_semantics.1 [] [⟨"AH", 7/10, 100, 100, 50, 70⟩] "AH"
      (by intro p hp; rw [List.mem_singleton] at hp; subst hp; norm_num)
      (by simp [confD, getKey])
  · exact C2_confidence_semantics.2 [("AH", ⟨1, 3/5⟩)] [⟨"AH", 9/10, 100, 100, 50, 70⟩]
      "AH" ⟨1, 3/5⟩ (by simp [getKey])

/-- Claim C4: per-class tally counts never decrease across a tally update,
in live mode (one pass of the update loop's reconcile) and in upload mode
(processing one image), and the Reset Session action leaves the empty
mapping, in which every class is absent. -/
theorem C4_counts_monotone_and_reset :
    (∀ (t : Tally) (ps : List Pred) (c : String),
        countD t c ≤ countD (liveReconcile t ps).1 c)
      ∧ (∀ (t : Tally) (ps : List Pred) (c : String),
          countD t c ≤ countD (uploadUpdate t ps) c)
      ∧ (∀ c : String, getKey resetSession c = none ∧ countD resetSession c = 0) :=
  ⟨fun t ps c => countD_liveReconcile_mono t ps c,
   fun t ps c => by rw [countD_uploadUpdate]; exact Nat.le_add_right _ _,
   fun c => ⟨rfl, rfl⟩⟩

/-! ### Claim C6: card naming -/

/-- Claim C6: get_full_card_name is total. When the code has length at
least 2, its final character is a known suit (the code matches it after
uppercasing) and its prefix is a known rank, the result is
suitSymbol-space-rankName-of-suitName; every other string gets the
decorated fallback containing the raw code, and the two canonical
examples and the ZZ fallback evaluate as the spec states. -/
theorem C6_full_card_name :
    (∀ (s : String) (c : Char) (suit_name emoji rank_name : String),
        2 ≤ s.data.length → s.data.getLast? = some c →
        SUITS.lookup (String.mk [c.toUpper]) = some (suit_name, emoji) →
        RANKS.lookup (String.mk s.data.dropLast) = some rank_name →
        get_full_card_name s = emoji ++ " " ++ rank_name ++ " of " ++ suit_name)
      ∧ (∀ s : String,
          get_full_card_name s = "🃏 " ++ s
            ∨ ∃ (c : Char) (suit_name emoji rank_name : String),
                2 ≤ s.data.length ∧ s.data.getLast? = some c
                  ∧ SUITS.lookup (String.mk [c.toUpper]) = some (suit_name, emoji)
                  ∧ RANKS.lookup (String.mk s.data.dropLast) = some rank_name)
      ∧ get_full_card_name "AH" = "♥️ Ace of Hearts"
      ∧ get_full_card_name "10S" = "♠️ 10 of Spades"
      ∧ get_full_card_name "ZZ" = "🃏 " ++ "ZZ" := by
  refine ⟨?_, ?_, by decide, by decide, by decide⟩
  · intro s c suit_name emoji rank_name hlen hlast hsuit hrank
    have hlen2 : ¬ s.length < 2 := Nat.not_lt.mpr hlen
    simp [get_full_card_name, hlast, hsuit, hrank, hlen2]
  · intro s
    by_cases hlen : 2 ≤ s.data.length
    · cases hlast : s.data.getLast? with
      | none => left; simp [get_full_card_name, hlen, hlast]
      | some c =>
        cases hsuit : SUITS.lookup (String.mk [c.toUpper]) with
        | none => left; simp [get_full_card_name, hlen, hlast, hsuit]
        | some sv =>
          cases hrank : RANKS.lookup (String.mk s.data.dropLast) with
          | none => left; simp [get_full_card_name, hlen, hlast, hsuit, hrank]
          | some rn => right; exact ⟨c, sv.1, sv.2, rn, hlen, rfl, by rw [hsuit], rfl⟩
    · left
      simp only [get_full_card_name]
      rw [if_neg hlen]

/-- Witness for C6_full_card_name: the positive clause applied to the
concrete code "AH". -/
theorem C6_witness : get_full_card_name "AH" = "♥️" ++ " " ++ "Ace" ++ " of " ++ "Hearts" :=
  C6_full_card_name.1 "AH" 'H' "Hearts" "♥️" "Ace" (by decide) (by decide)
    (by decide) (by decide)

/-! ### Claim C7: detect_cards failure handling -/

/-- Claim C7, counterexample: when the HTTP call fails with a
requests.RequestException (transport or parse error) but the SDK fallback
succeeds, detect_cards returns the fallback's result, not
{'predictions': []}. -/
theorem C7_counterexample :
    detect_cards (Except.error CallErr.requestException)
        (Except.ok (ApiResult.dict (some [⟨"AH", 9/10, 100, 100, 50, 70⟩]) none none))
      ≠ emptyResult := by
  simp [detect_cards, emptyResult]

/-- Claim C7 (amended): detect_cards never propagates an inference error;
when the HTTP call fails with a transport or parse error it first retries
through the SDK fallback and returns that result if the fallback
succeeds; {'predictions': []} is substituted only when the fallback also
fails, or when a non-request error occurred. -/
theorem C7_error_containment :
    (∀ sdkOutcome : Except Unit ApiResult,
        detect_cards (Except.error CallErr.otherException) sdkOutcome = emptyResult)
      ∧ (∀ e2 : Unit,
          detect_cards (Except.error CallErr.requestException) (Except.error e2) = emptyResult)
      ∧ (∀ r : ApiResult,
          detect_cards (Except.error CallErr.requestException) (Except.ok r) = r) :=
  ⟨fun _ => rfl, fun _ => rfl, fun _ => rfl⟩

/-! ### Claims C8 and C9: the box renderer -/

/-- Claim C8, counterexample: for an AH prediction at confidence 9/10 the
renderer draws the label "Ace of Hearts (90%)", while
fullName("AH") = "♥️ Ace of Hearts" makes the claimed label
"♥️ Ace of Hearts (90%)"; the drawn label lacks the suit emoji. -/
theorem C8_counterexample :
    textsOf (draw_boxes_cv [] [⟨"AH", 9/10, 100, 100, 50, 70⟩]) = ["Ace of Hearts (90%)"]
      ∧ "Ace of Hearts (90%)"
        ≠ get_full_card_name "AH" ++ " (" ++ formatPercent (9/10) ++ ")" := by
  constructor
  · norm_num [draw_boxes_cv, predOps, textsOf, drawLabel, formatPercent, roundHalfEven, floorQ]
    decide
  · norm_num [formatPercent, roundHalfEven, floorQ]
    decide

theorem drawLabel_eq_labelSpec (p : Pred) : drawLabel p = labelSpec p := by
  cases hsuit : SUITS.lookup (String.mk [p.cls.data.getLast?.getD 'X']) with
  | none => simp [drawLabel, labelSpec, hsuit]
  | some sv =>
    by_cases hlen : 2 ≤ p.cls.length <;>
      simp [drawLabel, labelSpec, hsuit, hlen]

/-- Claim C8 (amended): every text label the renderer draws is the plain
rank-of-suit display name, without the suit emoji of fullName (falling
back to the raw rank token for an unknown rank and to the raw code for a
short or unknown-suit code, with the suit matched case-sensitively),
followed by the confidence as a 0-decimal percentage in parentheses. -/
theorem C8_label_format (frame : Frame) (ps : List Pred) :
    textsOf (draw_boxes_cv frame ps) = textsOf frame ++ ps.map labelSpec := by
  induction ps generalizing frame with
  | nil => simp [draw_boxes_cv, textsOf]
  | cons p ps ih =>
    have hstep : draw_boxes_cv frame (p :: ps) = draw_boxes_cv (frame ++ predOps p) ps := rfl
    have htexts : textsOf (frame ++ predOps p) = textsOf frame ++ [drawLabel p] := by
      simp [textsOf, predOps]
    rw [hstep, ih, htexts, drawLabel_eq_labelSpec, List.append_assoc, List.singleton_append,
      List.map_cons]

theorem set_get_self {α : Type _} (l : List α) (n : ℕ) (h : n < l.length) :
    l.set n (l.get ⟨n, h⟩) = l := by
  apply List.ext_getElem
  · simp
  · intro i h1 h2
    rw [List.getElem_set]
    by_cases hi : n = i <;> simp [hi]

/-- Claim C9: draw_boxes_cv draws into the very frame array it is given
and returns the reference it was passed: the heap afterwards differs only
at that reference, whose frame has exactly the rendering of the pure
draw_boxes_cv applied to the original frame appended in place, and no new
frame is allocated. The prediction values are only read, never written. -/
theorem C9_draw_in_place (h : List Frame) (r : ℕ) (ps : List Pred) (hr : r < h.length) :
    drawBoxesCvRef h r ps = (h.set r (draw_boxes_cv (h.get ⟨r, hr⟩) ps), r) := by
  induction ps generalizing h hr with
  | nil =>
    show (h, r) = (h.set r (h.get ⟨r, hr⟩), r)
    rw [set_get_self]
  | cons p ps ih =>
    show drawBoxesCvRef (h.set r (h.getD r [] ++ predOps p)) r ps = _
    have hgd : h.getD r [] = h.get ⟨r, hr⟩ := by
      rw [List.getD_eq_getElem _ _ hr]
      rfl
    rw [hgd]
    have hr' : r < (h.set r (h.get ⟨r, hr⟩ ++ predOps p)).length := by
      rw [List.length_set]
      exact hr
    rw [ih _ hr']
    have hget : (h.set r (h.get ⟨r, hr⟩ ++ predOps p)).get ⟨r, hr'⟩
        = h.get ⟨r, hr⟩ ++ predOps p := by
      simp [List.getElem_set]
    rw [List.set_set, hget]
    rfl

/-- Witness for C9_draw_in_place: a two-frame heap, drawing one
prediction into the frame at index 1. -/
theorem C9_witness :
    drawBoxesCvRef [[], []] 1 [⟨"AH", 9/10, 100, 100, 50, 70⟩]
      = ([[], draw_boxes_cv (([[], []] : List Frame).get ⟨1, by decide⟩)
          [⟨"AH", 9/10, 100, 100, 50, 70⟩]], 1) := by
  have hmain := C9_draw_in_place [[], []] 1 [⟨"AH", 9/10, 100, 100, 50, 70⟩] (by decide)
  simpa using hmain

end CardScan
